import Mathlib

/-!
Verification of the token log-probability aggregation and decision-threshold
logic of the logprobs notebook. The embedding models the per-token records
returned by the completions endpoint, the aggregation loop (byte
concatenation and log-probability summation), UTF-8 decoding of concatenated
byte fragments, and the confidence-threshold comparison used by the
autocomplete demonstration. Log-probabilities are modelled as rationals
(decimal literals in the source), probabilities as real numbers via Real.exp.
-/

namespace Logprobs

/-- One alternative candidate token at an output position: the token text and
its natural-log probability. -/
structure Alt where
  token : String
  logprob : ℚ
deriving DecidableEq

/-- One emitted token of a completion: the token text, its raw UTF-8 byte
fragment, its log-probability, and the list of top alternative candidates. -/
structure TokenLogProb where
  token : String
  bytes : List ℕ
  logprob : ℚ
  top_logprobs : List Alt
deriving DecidableEq

/-- Conversion of a log-probability to a linear probability, as in the
notebook expression np.exp(logprob.logprob). -/
noncomputable def linearProbability (l : ℚ) : ℝ := Real.exp (l : ℝ)

/-- The summation of log-probabilities performed by the aggregation loop:
joint_logprob starts at 0.0 and accumulates token.logprob in sequence
order. -/
def jointLogprobLoop (ts : List TokenLogProb) : ℚ :=
  ts.foldl (fun acc tok => acc + tok.logprob) 0

/-- Joint probability of an emitted sequence: the accumulated log-probability
sum is exponentiated exactly once at the end, as in exp(joint_logprob). -/
noncomputable def jointProbability (ts : List TokenLogProb) : ℝ :=
  Real.exp ((jointLogprobLoop ts : ℚ) : ℝ)

/-- The confidence test of the autocomplete loop: the source compares
np.exp(alt_token.logprob) > .95 with a strict greater-than; the threshold is
the caller-chosen constant (0.95 in the notebook). -/
def meetsThreshold (l : ℚ) (t : ℝ) : Prop := Real.exp (l : ℝ) > t

lemma jointLogprobLoop_eq_sum (ts : List TokenLogProb) :
    jointLogprobLoop ts = (ts.map TokenLogProb.logprob).sum := by
  have h : ∀ (us : List TokenLogProb) (q : ℚ),
      us.foldl (fun acc tok => acc + tok.logprob) q
        = q + (us.map TokenLogProb.logprob).sum := by
    intro us
    induction us with
    | nil => intro q; simp
    | cons u us ih =>
        intro q
        simp only [List.foldl_cons, List.map_cons, List.sum_cons, ih]
        ring
  simpa using h ts 0

/-- C1: jointProbability of a token sequence equals the exponential of the sum
of the logprobs taken in sequence order, with a single exponentiation at the
end, and the empty sequence has joint probability exactly 1. -/
theorem jointProbability_exp_sum :
    (∀ ts : List TokenLogProb,
        jointProbability ts
          = Real.exp (((ts.map TokenLogProb.logprob).sum : ℚ) : ℝ))
      ∧ jointProbability [] = 1 := by
  constructor
  · intro ts
    rw [jointProbability, jointLogprobLoop_eq_sum]
  · simp [jointProbability, jointLogprobLoop, Real.exp_zero]

/-- C6: for every log-probability x ≤ 0, the linear probability exp x lies in
the half-open interval (0, 1], and linearProbability 0 = 1 exactly. -/
theorem linearProbability_mem_Ioc :
    (∀ x : ℚ, x ≤ 0 → 0 < linearProbability x ∧ linearProbability x ≤ 1)
      ∧ linearProbability 0 = 1 := by
  constructor
  · intro x hx
    refine ⟨Real.exp_pos _, ?_⟩
    have hx' : (x : ℝ) ≤ 0 := by exact_mod_cast hx
    calc Real.exp (x : ℝ) ≤ Real.exp 0 := Real.exp_le_exp.mpr hx'
      _ = 1 := Real.exp_zero
  · simp [linearProbability, Real.exp_zero]

/-- C6 witness: the interval bound at the concrete input −1, together with
the exact value at 0. -/
theorem linearProbability_mem_Ioc_witness :
    (0 < linearProbability (-1) ∧ linearProbability (-1) ≤ 1)
      ∧ linearProbability 0 = 1 :=
  ⟨linearProbability_mem_Ioc.1 (-1) (by norm_num),
   linearProbability_mem_Ioc.2⟩

/-- C4 counterexample: at logprob 0 and threshold 1 (a threshold within the
claimed range (0, 1]), the source comparison is strict, so meetsThreshold is
false although linearProbability 0 ≥ 1 holds; the claimed ≥ semantics fails. -/
theorem meetsThreshold_not_ge_semantics :
    ¬ (meetsThreshold 0 1 ↔ linearProbability 0 ≥ 1) := by
  intro h
  have h1 : linearProbability 0 ≥ 1 := by
    simp [linearProbability, Real.exp_zero]
  have h2 : meetsThreshold 0 1 := h.mpr h1
  simp only [meetsThreshold, Rat.cast_zero, Real.exp_zero] at h2
  exact lt_irrefl (1 : ℝ) h2

/-- C4 (amended): for every logprob and every threshold t in (0, 1],
meetsThreshold holds exactly when the linear probability is strictly greater
than t, matching the strict comparison np.exp(alt_token.logprob) > .95 of the
source. -/
theorem meetsThreshold_iff_strict (l : ℚ) (t : ℝ) (_ht0 : 0 < t) (_ht1 : t ≤ 1) :
    meetsThreshold l t ↔ linearProbability l > t := Iff.rfl

/-- C4 witness: the amended equivalence instantiated at logprob −1 and
threshold 1/2. -/
theorem meetsThreshold_iff_strict_witness :
    meetsThreshold (-1) (1 / 2) ↔ linearProbability (-1) > 1 / 2 :=
  meetsThreshold_iff_strict (-1) (1 / 2) (by norm_num) (by norm_num)

/-- C7: the threshold test is monotone in the log-probability: for a fixed
threshold, if one logprob has at least the linear probability of another and
the latter meets the threshold, so does the former. -/
theorem meetsThreshold_monotone (l1 l2 : ℚ) (t : ℝ)
    (hle : linearProbability l1 ≥ linearProbability l2)
    (h2 : meetsThreshold l2 t) : meetsThreshold l1 t :=
  lt_of_lt_of_le h2 hle

/-- C7 witness: monotonicity applied at the concrete pair of logprobs 0 and
−1/10 with threshold 1/2; the hypotheses are discharged with explicit
exponential bounds. -/
theorem meetsThreshold_monotone_witness : meetsThreshold 0 (1 / 2) := by
  refine meetsThreshold_monotone 0 (-1 / 10) (1 / 2) ?_ ?_
  · have h : ((-1 / 10 : ℚ) : ℝ) ≤ ((0 : ℚ) : ℝ) := by norm_num
    exact Real.exp_le_exp.mpr h
  · show Real.exp (((-1 / 10 : ℚ)) : ℝ) > 1 / 2
    have h1 : ((-1 / 10 : ℚ) : ℝ) + 1 ≤ Real.exp (((-1 / 10 : ℚ)) : ℝ) :=
      Real.add_one_le_exp _
    have h2 : ((-1 / 10 : ℚ) : ℝ) = -1 / 10 := by norm_num
    rw [h2] at h1
    linarith

/-- The body of the byte/log-probability aggregation loop: aggregated_bytes
is extended with the token bytes and joint_logprob is incremented by the
token logprob. -/
def aggregateStep (st : List ℕ × ℚ) (tok : TokenLogProb) : List ℕ × ℚ :=
  (st.1 ++ tok.bytes, st.2 + tok.logprob)

/-- One full run of the aggregation loop: the accumulators are reinitialised
to ([], 0.0) at the start of the cell and then folded over the tokens of the
response being processed. -/
def aggregateRun (ts : List TokenLogProb) : List ℕ × ℚ :=
  ts.foldl aggregateStep ([], 0)

/-- C8: the stateful aggregation loop is extensionally a pure function of the
token sequence it processes: its final accumulator state is exactly the
concatenation of the token byte fragments together with the sum of the token
logprobs, so equal inputs always produce equal outputs and nothing from a
previous run can influence the result. -/
theorem aggregateRun_pure :
    ∀ ts : List TokenLogProb,
      aggregateRun ts
        = ((ts.map TokenLogProb.bytes).flatten,
           (ts.map TokenLogProb.logprob).sum) := by
  have h : ∀ (ts : List TokenLogProb) (bs : List ℕ) (q : ℚ),
      ts.foldl aggregateStep (bs, q)
        = (bs ++ (ts.map TokenLogProb.bytes).flatten,
           q + (ts.map TokenLogProb.logprob).sum) := by
    intro ts
    induction ts with
    | nil => intro bs q; simp
    | cons t ts ih =>
        intro bs q
        simp only [List.foldl_cons, aggregateStep, List.map_cons,
          List.flatten_cons, List.sum_cons, ih, List.append_assoc]
        rw [add_assoc]
  intro ts
  simpa using h ts [] 0

/-- Strict UTF-8 decoding of one code point from the front of a byte list, as
performed by bytes(...).decode of the source: rejects stray continuation
bytes, truncated sequences, overlong encodings, surrogate code points and
code points above 0x10FFFF. Returns the decoded code point and the remaining
bytes. -/
def utf8DecodeChar : List ℕ → Option (ℕ × List ℕ)
  | [] => none
  | b0 :: rest =>
    if b0 < 0x80 then some (b0, rest)
    else if b0 < 0xC0 then none
    else if b0 < 0xE0 then
      match rest with
      | b1 :: tl =>
        if 0x80 ≤ b1 ∧ b1 < 0xC0 ∧ 0x80 ≤ (b0 - 0xC0) * 0x40 + (b1 - 0x80)
        then some ((b0 - 0xC0) * 0x40 + (b1 - 0x80), tl)
        else none
      | [] => none
    else if b0 < 0xF0 then
      match rest with
      | b1 :: b2 :: tl =>
        if 0x80 ≤ b1 ∧ b1 < 0xC0 ∧ 0x80 ≤ b2 ∧ b2 < 0xC0
            ∧ 0x800 ≤ (b0 - 0xE0) * 0x1000 + (b1 - 0x80) * 0x40 + (b2 - 0x80)
            ∧ ¬ (0xD800 ≤ (b0 - 0xE0) * 0x1000 + (b1 - 0x80) * 0x40 + (b2 - 0x80)
                  ∧ (b0 - 0xE0) * 0x1000 + (b1 - 0x80) * 0x40 + (b2 - 0x80) ≤ 0xDFFF)
        then some ((b0 - 0xE0) * 0x1000 + (b1 - 0x80) * 0x40 + (b2 - 0x80), tl)
        else none
      | _ => none
    else if b0 < 0xF8 then
      match rest with
      | b1 :: b2 :: b3 :: tl =>
        if 0x80 ≤ b1 ∧ b1 < 0xC0 ∧ 0x80 ≤ b2 ∧ b2 < 0xC0 ∧ 0x80 ≤ b3 ∧ b3 < 0xC0
            ∧ 0x10000 ≤ (b0 - 0xF0) * 0x40000 + (b1 - 0x80) * 0x1000
                + (b2 - 0x80) * 0x40 + (b3 - 0x80)
            ∧ (b0 - 0xF0) * 0x40000 + (b1 - 0x80) * 0x1000
                + (b2 - 0x80) * 0x40 + (b3 - 0x80) ≤ 0x10FFFF
        then some ((b0 - 0xF0) * 0x40000 + (b1 - 0x80) * 0x1000
                + (b2 - 0x80) * 0x40 + (b3 - 0x80), tl)
        else none
      | _ => none
    else none

/-- Fuel-indexed strict UTF-8 decoding of a whole byte list into a list of
code points; the fuel bounds the number of decoded code points and is
instantiated with the length of the input, which always suffices. -/
def utf8DecodeAux : ℕ → List ℕ → Option (List ℕ)
  | _, [] => some []
  | 0, _ :: _ => none
  | fuel + 1, b :: rest =>
    match utf8DecodeChar (b :: rest) with
    | none => none
    | some (c, tl) => (utf8DecodeAux fuel tl).map (fun cs => c :: cs)

/-- Strict UTF-8 decoding of a byte list into the list of its code points;
none exactly when the bytes are not valid UTF-8. -/
def utf8Decode (bs : List ℕ) : Option (List ℕ) :=
  utf8DecodeAux bs.length bs

/-- Strict UTF-8 decoding of a byte list into a string. -/
def utf8DecodeString (bs : List ℕ) : Option String :=
  (utf8Decode bs).map (fun cs => String.mk (cs.map Char.ofNat))

/-- A Unicode scalar value: a code point below 0x110000 that is not a
surrogate. -/
def UnicodeScalar (c : ℕ) : Prop :=
  c < 0xD800 ∨ (0xDFFF < c ∧ c ≤ 0x10FFFF)

/-- Standard UTF-8 encoding of one Unicode scalar value. -/
def utf8EncodeChar (c : ℕ) : List ℕ :=
  if c < 0x80 then [c]
  else if c < 0x800 then [0xC0 + c / 0x40, 0x80 + c % 0x40]
  else if c < 0x10000 then
    [0xE0 + c / 0x1000, 0x80 + c / 0x40 % 0x40, 0x80 + c % 0x40]
  else
    [0xF0 + c / 0x40000, 0x80 + c / 0x1000 % 0x40,
     0x80 + c / 0x40 % 0x40, 0x80 + c % 0x40]

/-- Standard UTF-8 encoding of a list of Unicode scalar values. -/
def utf8Encode (cs : List ℕ) : List ℕ :=
  (cs.map utf8EncodeChar).flatten

/-- A byte list is valid UTF-8 when it is the encoding of some list of
Unicode scalar values. -/
def ValidUtf8 (bs : List ℕ) : Prop :=
  ∃ cs : List ℕ, (∀ c ∈ cs, UnicodeScalar c) ∧ utf8Encode cs = bs

lemma utf8EncodeChar_length_pos (c : ℕ) : 1 ≤ (utf8EncodeChar c).length := by
  simp only [utf8EncodeChar]
  split_ifs <;> simp

lemma utf8DecodeChar_encode (c : ℕ) (hc : UnicodeScalar c) (tl : List ℕ) :
    utf8DecodeChar (utf8EncodeChar c ++ tl) = some (c, tl) := by
  rcases Nat.lt_or_ge c 0x80 with h80 | h80
  · have henc : utf8EncodeChar c = [c] := by
      simp only [utf8EncodeChar]; rw [if_pos h80]
    rw [henc, List.cons_append, List.nil_append]
    simp only [utf8DecodeChar]
    rw [if_pos h80]
  · rcases Nat.lt_or_ge c 0x800 with h800 | h800
    · have henc : utf8EncodeChar c = [0xC0 + c / 0x40, 0x80 + c % 0x40] := by
        simp only [utf8EncodeChar]; rw [if_neg (by omega), if_pos h800]
      rw [henc, List.cons_append, List.cons_append, List.nil_append]
      simp only [utf8DecodeChar]
      rw [if_neg (by omega), if_neg (by omega), if_pos (by omega),
        if_pos (by omega)]
      have he : (0xC0 + c / 0x40 - 0xC0) * 0x40 + (0x80 + c % 0x40 - 0x80) = c := by
        omega
      rw [he]
    · rcases Nat.lt_or_ge c 0x10000 with h64k | h64k
      · have hsur : ¬ (0xD800 ≤ c ∧ c ≤ 0xDFFF) := by
          rcases hc with h | h
          · omega
          · omega
        have henc : utf8EncodeChar c
            = [0xE0 + c / 0x1000, 0x80 + c / 0x40 % 0x40, 0x80 + c % 0x40] := by
          simp only [utf8EncodeChar]
          rw [if_neg (by omega), if_neg (by omega), if_pos h64k]
        rw [henc, List.cons_append, List.cons_append, List.cons_append,
          List.nil_append]
        simp only [utf8DecodeChar]
        rw [if_neg (by omega), if_neg (by omega), if_neg (by omega),
          if_pos (by omega), if_pos (by omega)]
        have he : (0xE0 + c / 0x1000 - 0xE0) * 0x1000
            + (0x80 + c / 0x40 % 0x40 - 0x80) * 0x40
            + (0x80 + c % 0x40 - 0x80) = c := by omega
        rw [he]
      · have h11 : c ≤ 0x10FFFF := by
          rcases hc with h | h
          · omega
          · omega
        have henc : utf8EncodeChar c
            = [0xF0 + c / 0x40000, 0x80 + c / 0x1000 % 0x40,
               0x80 + c / 0x40 % 0x40, 0x80 + c % 0x40] := by
          simp only [utf8EncodeChar]
          rw [if_neg (by omega), if_neg (by omega), if_neg (by omega)]
        rw [henc, List.cons_append, List.cons_append, List.cons_append,
          List.cons_append, List.nil_append]
        simp only [utf8DecodeChar]
        rw [if_neg (by omega), if_neg (by omega), if_neg (by omega),
          if_neg (by omega), if_pos (by omega), if_pos (by omega)]
        have he : (0xF0 + c / 0x40000 - 0xF0) * 0x40000
            + (0x80 + c / 0x1000 % 0x40 - 0x80) * 0x1000
            + (0x80 + c / 0x40 % 0x40 - 0x80) * 0x40
            + (0x80 + c % 0x40 - 0x80) = c := by omega
        rw [he]

lemma utf8DecodeChar_sound (bs : List ℕ) (c : ℕ) (tl : List ℕ)
    (h : utf8DecodeChar bs = some (c, tl)) :
    UnicodeScalar c ∧ utf8EncodeChar c ++ tl = bs ∧ tl.length < bs.length := by
  cases bs with
  | nil => simp [utf8DecodeChar] at h
  | cons b0 rest =>
    by_cases h1 : b0 < 0x80
    · simp only [utf8DecodeChar, if_pos h1, Option.some.injEq,
        Prod.mk.injEq] at h
      obtain ⟨rfl, rfl⟩ := h
      refine ⟨Or.inl (by omega), ?_, by simp⟩
      simp only [utf8EncodeChar]
      rw [if_pos h1]
      rfl
    · by_cases h2 : b0 < 0xC0
      · simp only [utf8DecodeChar, if_neg h1, if_pos h2] at h
        exact Option.noConfusion h
      · by_cases h3 : b0 < 0xE0
        · cases rest with
          | nil =>
            simp only [utf8DecodeChar, if_neg h1, if_neg h2, if_pos h3] at h
            exact Option.noConfusion h
          | cons b1 tl2 =>
            simp only [utf8DecodeChar, if_neg h1, if_neg h2, if_pos h3] at h
            by_cases hcond : 0x80 ≤ b1 ∧ b1 < 0xC0
                ∧ 0x80 ≤ (b0 - 0xC0) * 0x40 + (b1 - 0x80)
            · rw [if_pos hcond] at h
              simp only [Option.some.injEq, Prod.mk.injEq] at h
              obtain ⟨rfl, rfl⟩ := h
              obtain ⟨hA, hB, hC⟩ := hcond
              refine ⟨Or.inl (by omega), ?_,
                by simp only [List.length_cons]; omega⟩
              have henc : utf8EncodeChar ((b0 - 0xC0) * 0x40 + (b1 - 0x80))
                  = [0xC0 + ((b0 - 0xC0) * 0x40 + (b1 - 0x80)) / 0x40,
                     0x80 + ((b0 - 0xC0) * 0x40 + (b1 - 0x80)) % 0x40] := by
                simp only [utf8EncodeChar]
                rw [if_neg (by omega), if_pos (by omega)]
              rw [henc]
              have e0 : 0xC0 + ((b0 - 0xC0) * 0x40 + (b1 - 0x80)) / 0x40 = b0 := by
                omega
              have e1 : 0x80 + ((b0 - 0xC0) * 0x40 + (b1 - 0x80)) % 0x40 = b1 := by
                omega
              rw [e0, e1]; rfl
            · rw [if_neg hcond] at h
              exact absurd h (by simp)
        · by_cases h4 : b0 < 0xF0
          · match rest with
            | [] =>
              simp only [utf8DecodeChar, if_neg h1, if_neg h2, if_neg h3,
                if_pos h4] at h
              exact Option.noConfusion h
            | [b1] =>
              simp only [utf8DecodeChar, if_neg h1, if_neg h2,
                if_neg h3, if_pos h4] at h
              exact Option.noConfusion h
            | b1 :: b2 :: tl2 =>
              simp only [utf8DecodeChar, if_neg h1, if_neg h2, if_neg h3,
                if_pos h4] at h
              by_cases hcond : 0x80 ≤ b1 ∧ b1 < 0xC0 ∧ 0x80 ≤ b2 ∧ b2 < 0xC0
                  ∧ 0x800 ≤ (b0 - 0xE0) * 0x1000 + (b1 - 0x80) * 0x40 + (b2 - 0x80)
                  ∧ ¬ (0xD800 ≤ (b0 - 0xE0) * 0x1000 + (b1 - 0x80) * 0x40 + (b2 - 0x80)
                        ∧ (b0 - 0xE0) * 0x1000 + (b1 - 0x80) * 0x40 + (b2 - 0x80) ≤ 0xDFFF)
              · rw [if_pos hcond] at h
                simp only [Option.some.injEq, Prod.mk.injEq] at h
                obtain ⟨rfl, rfl⟩ := h
                obtain ⟨hA, hB, hC, hD, hE, hF⟩ := hcond
                refine ⟨?_, ?_, by simp only [List.length_cons]; omega⟩
                · rcases Nat.lt_or_ge ((b0 - 0xE0) * 0x1000 + (b1 - 0x80) * 0x40
                      + (b2 - 0x80)) 0xD800 with hs | hs
                  · exact Or.inl hs
                  · exact Or.inr ⟨by omega, by omega⟩
                · have henc : utf8EncodeChar ((b0 - 0xE0) * 0x1000
                      + (b1 - 0x80) * 0x40 + (b2 - 0x80))
                      = [0xE0 + ((b0 - 0xE0) * 0x1000 + (b1 - 0x80) * 0x40
                            + (b2 - 0x80)) / 0x1000,
                         0x80 + ((b0 - 0xE0) * 0x1000 + (b1 - 0x80) * 0x40
                            + (b2 - 0x80)) / 0x40 % 0x40,
                         0x80 + ((b0 - 0xE0) * 0x1000 + (b1 - 0x80) * 0x40
                            + (b2 - 0x80)) % 0x40] := by
                    simp only [utf8EncodeChar]
                    rw [if_neg (by omega), if_neg (by omega), if_pos (by omega)]
                  rw [henc]
                  have e0 : 0xE0 + ((b0 - 0xE0) * 0x1000 + (b1 - 0x80) * 0x40
                      + (b2 - 0x80)) / 0x1000 = b0 := by omega
                  have e1 : 0x80 + ((b0 - 0xE0) * 0x1000 + (b1 - 0x80) * 0x40
                      + (b2 - 0x80)) / 0x40 % 0x40 = b1 := by omega
                  have e2 : 0x80 + ((b0 - 0xE0) * 0x1000 + (b1 - 0x80) * 0x40
                      + (b2 - 0x80)) % 0x40 = b2 := by omega
                  rw [e0, e1, e2]; rfl
              · rw [if_neg hcond] at h
                exact absurd h (by simp)
          · by_cases h5 : b0 < 0xF8
            · match rest with
              | [] =>
                simp only [utf8DecodeChar, if_neg h1, if_neg h2,
                  if_neg h3, if_neg h4, if_pos h5] at h
                exact Option.noConfusion h
              | [b1] =>
                simp only [utf8DecodeChar, if_neg h1, if_neg h2,
                  if_neg h3, if_neg h4, if_pos h5] at h
                exact Option.noConfusion h
              | [b1, b2] =>
                simp only [utf8DecodeChar, if_neg h1, if_neg h2,
                  if_neg h3, if_neg h4, if_pos h5] at h
                exact Option.noConfusion h
              | b1 :: b2 :: b3 :: tl2 =>
                simp only [utf8DecodeChar, if_neg h1, if_neg h2, if_neg h3,
                  if_neg h4, if_pos h5] at h
                by_cases hcond : 0x80 ≤ b1 ∧ b1 < 0xC0 ∧ 0x80 ≤ b2 ∧ b2 < 0xC0
                    ∧ 0x80 ≤ b3 ∧ b3 < 0xC0
                    ∧ 0x10000 ≤ (b0 - 0xF0) * 0x40000 + (b1 - 0x80) * 0x1000
                        + (b2 - 0x80) * 0x40 + (b3 - 0x80)
                    ∧ (b0 - 0xF0) * 0x40000 + (b1 - 0x80) * 0x1000
                        + (b2 - 0x80) * 0x40 + (b3 - 0x80) ≤ 0x10FFFF
                · rw [if_pos hcond] at h
                  simp only [Option.some.injEq, Prod.mk.injEq] at h
                  obtain ⟨rfl, rfl⟩ := h
                  obtain ⟨hA, hB, hC, hD, hE, hF, hG, hH⟩ := hcond
                  refine ⟨Or.inr ⟨by omega, hH⟩, ?_,
                    by simp only [List.length_cons]; omega⟩
                  have henc : utf8EncodeChar ((b0 - 0xF0) * 0x40000
                      + (b1 - 0x80) * 0x1000 + (b2 - 0x80) * 0x40 + (b3 - 0x80))
                      = [0xF0 + ((b0 - 0xF0) * 0x40000 + (b1 - 0x80) * 0x1000
                            + (b2 - 0x80) * 0x40 + (b3 - 0x80)) / 0x40000,
                         0x80 + ((b0 - 0xF0) * 0x40000 + (b1 - 0x80) * 0x1000
                            + (b2 - 0x80) * 0x40 + (b3 - 0x80)) / 0x1000 % 0x40,
                         0x80 + ((b0 - 0xF0) * 0x40000 + (b1 - 0x80) * 0x1000
                            + (b2 - 0x80) * 0x40 + (b3 - 0x80)) / 0x40 % 0x40,
                         0x80 + ((b0 - 0xF0) * 0x40000 + (b1 - 0x80) * 0x1000
                            + (b2 - 0x80) * 0x40 + (b3 - 0x80)) % 0x40] := by
                    simp only [utf8EncodeChar]
                    rw [if_neg (by omega), if_neg (by omega), if_neg (by omega)]
                  rw [henc]
                  have e0 : 0xF0 + ((b0 - 0xF0) * 0x40000 + (b1 - 0x80) * 0x1000
                      + (b2 - 0x80) * 0x40 + (b3 - 0x80)) / 0x40000 = b0 := by
                    omega
                  have e1 : 0x80 + ((b0 - 0xF0) * 0x40000 + (b1 - 0x80) * 0x1000
                      + (b2 - 0x80) * 0x40 + (b3 - 0x80)) / 0x1000 % 0x40 = b1 := by
                    omega
                  have e2 : 0x80 + ((b0 - 0xF0) * 0x40000 + (b1 - 0x80) * 0x1000
                      + (b2 - 0x80) * 0x40 + (b3 - 0x80)) / 0x40 % 0x40 = b2 := by
                    omega
                  have e3 : 0x80 + ((b0 - 0xF0) * 0x40000 + (b1 - 0x80) * 0x1000
                      + (b2 - 0x80) * 0x40 + (b3 - 0x80)) % 0x40 = b3 := by
                    omega
                  rw [e0, e1, e2, e3]; rfl
                · rw [if_neg hcond] at h
                  exact absurd h (by simp)
            · simp only [utf8DecodeChar, if_neg h1, if_neg h2, if_neg h3,
                if_neg h4, if_neg h5] at h
              exact Option.noConfusion h

lemma utf8DecodeAux_encode (cs : List ℕ) (hcs : ∀ c ∈ cs, UnicodeScalar c) :
    ∀ fuel : ℕ, (utf8Encode cs).length ≤ fuel →
      utf8DecodeAux fuel (utf8Encode cs) = some cs := by
  induction cs with
  | nil =>
      intro fuel _
      have h0 : utf8Encode [] = ([] : List ℕ) := by simp [utf8Encode]
      rw [h0]
      cases fuel <;> rfl
  | cons c cs ih =>
      intro fuel hfuel
      have hc : UnicodeScalar c := hcs c (List.mem_cons_self c cs)
      have hcs' : ∀ x ∈ cs, UnicodeScalar x := fun x hx =>
        hcs x (List.mem_cons_of_mem c hx)
      have hlen : 1 ≤ (utf8EncodeChar c).length := utf8EncodeChar_length_pos c
      cases hb : utf8EncodeChar c with
      | nil => rw [hb] at hlen; simp at hlen
      | cons b bs =>
        have hshape : utf8Encode (c :: cs) = b :: (bs ++ utf8Encode cs) := by
          simp [utf8Encode, hb]
        rw [hshape]
        have hfuel' : (b :: (bs ++ utf8Encode cs)).length ≤ fuel := by
          rw [← hshape]; exact hfuel
        cases fuel with
        | zero => simp at hfuel'
        | succ n =>
          have hdc : utf8DecodeChar (b :: (bs ++ utf8Encode cs))
              = some (c, utf8Encode cs) := by
            have h := utf8DecodeChar_encode c hc (utf8Encode cs)
            rw [hb] at h
            simpa using h
          have haux : utf8DecodeAux n (utf8Encode cs) = some cs := by
            apply ih hcs'
            have : (utf8Encode cs).length ≤ n := by
              simp only [List.length_cons, List.length_append] at hfuel'
              omega
            exact this
          simp only [utf8DecodeAux, hdc, haux, Option.map_some']
  
lemma utf8DecodeAux_sound :
    ∀ (fuel : ℕ) (bs cs : List ℕ), utf8DecodeAux fuel bs = some cs →
      (∀ c ∈ cs, UnicodeScalar c) ∧ utf8Encode cs = bs := by
  intro fuel
  induction fuel with
  | zero =>
      intro bs cs h
      cases bs with
      | nil =>
          simp only [utf8DecodeAux, Option.some.injEq] at h
          subst h
          refine ⟨?_, by simp [utf8Encode]⟩
          intro c hc
          cases hc
      | cons b rest => exact Option.noConfusion h
  | succ n ih =>
      intro bs cs h
      cases bs with
      | nil =>
          simp only [utf8DecodeAux, Option.some.injEq] at h
          subst h
          refine ⟨?_, by simp [utf8Encode]⟩
          intro c hc
          cases hc
      | cons b rest =>
          simp only [utf8DecodeAux] at h
          cases hdc : utf8DecodeChar (b :: rest) with
          | none => rw [hdc] at h; simp at h
          | some ctl =>
              obtain ⟨c0, tl⟩ := ctl
              rw [hdc] at h
              simp only [Option.map_eq_some'] at h
              obtain ⟨cs', haux, hcons⟩ := h
              subst hcons
              obtain ⟨hsc, henc, -⟩ := utf8DecodeChar_sound _ _ _ hdc
              obtain ⟨hsc', henc'⟩ := ih tl cs' haux
              refine ⟨?_, ?_⟩
              · intro x hx
                rcases List.mem_cons.mp hx with rfl | hx'
                · exact hsc
                · exact hsc' x hx'
              · have hstep : utf8Encode (c0 :: cs')
                    = utf8EncodeChar c0 ++ utf8Encode cs' := by
                  simp [utf8Encode]
                rw [hstep, henc']
                exact henc

lemma utf8Decode_none_iff (bs : List ℕ) :
    utf8Decode bs = none ↔ ¬ ValidUtf8 bs := by
  constructor
  · intro h hvalid
    obtain ⟨cs, hsc, henc⟩ := hvalid
    have hdec : utf8DecodeAux bs.length (utf8Encode cs) = some cs := by
      apply utf8DecodeAux_encode cs hsc
      rw [henc]
    rw [henc] at hdec
    unfold utf8Decode at h
    rw [hdec] at h
    exact Option.noConfusion h
  · intro hnv
    cases h : utf8Decode bs with
    | none => rfl
    | some cs =>
        exfalso
        apply hnv
        unfold utf8Decode at h
        obtain ⟨hsc, henc⟩ := utf8DecodeAux_sound bs.length bs cs h
        exact ⟨cs, hsc, henc⟩

/-- The two error conditions of the aggregation cell: the byte buffer fails
to decode as UTF-8, or the decoded text disagrees with the message content
reported by the service (the assert in the source). -/
inductive AggError where
  | decodingError
  | consistencyError
deriving DecidableEq

/-- Decoding of a token sequence into text: the bytes of every token are
concatenated, in order, into one buffer, and the buffer is decoded as strict
UTF-8, exactly as bytes(aggregated_bytes).decode of the source; a decoding
failure is surfaced as decodingError. -/
def decodeText (ts : List TokenLogProb) : Except AggError String :=
  match utf8DecodeString ((ts.map TokenLogProb.bytes).flatten) with
  | none => Except.error AggError.decodingError
  | some t => Except.ok t

/-- A completion response as consumed by the aggregation cell: the ordered
emitted tokens with their log-probabilities, and the independently reported
message content. -/
structure CompletionResult where
  tokens : List TokenLogProb
  messageContent : String

/-- The aggregation cell applied to one response: decode the concatenated
token bytes, then assert that the decoded text equals the reported message
content; a mismatch is surfaced as consistencyError and nothing is
recovered. -/
def processCompletion (r : CompletionResult) : Except AggError String :=
  match decodeText r.tokens with
  | Except.error e => Except.error e
  | Except.ok t =>
      if r.messageContent = t then Except.ok t
      else Except.error AggError.consistencyError

/-- The nine-token emoji response recorded in the source: each token carries
a fragment of the UTF-8 encoding of the three emojis, and the fragments are
individually incomplete multi-byte sequences. -/
def emojiTokens : List TokenLogProb :=
  [⟨"\xf0\x9f", [240, 159], -0.17577635, []⟩,
   ⟨"\x8c", [140], -0.85772306, []⟩,
   ⟨"\x88", [136], -2.3395207, []⟩,
   ⟨"\xf0\x9f", [240, 159], -0.20028262, []⟩,
   ⟨"\x8d", [141], -0.9647721, []⟩,
   ⟨"\x95", [149], -0.5920826, []⟩,
   ⟨"\xf0\x9f", [240, 159], -0.15628104, []⟩,
   ⟨"\x9a", [154], -0.67634493, []⟩,
   ⟨"\x80", [128], -0.0012997614, []⟩]

/-- C2: decodeText concatenates the byte fragments of all tokens in order and
decodes the buffer as UTF-8; it fails with decodingError exactly when the
concatenated bytes are not valid UTF-8, and on the recorded emoji token
sequence it returns exactly the string of the three emojis. -/
lemma decodeText_eq_error_iff (ts : List TokenLogProb) :
    decodeText ts = Except.error AggError.decodingError
      ↔ utf8Decode ((ts.map TokenLogProb.bytes).flatten) = none := by
  unfold decodeText utf8DecodeString
  cases h : utf8Decode ((ts.map TokenLogProb.bytes).flatten) with
  | none => simp
  | some cs => simp

theorem decodeText_spec :
    (∀ ts : List TokenLogProb,
        decodeText ts = Except.error AggError.decodingError
          ↔ ¬ ValidUtf8 ((ts.map TokenLogProb.bytes).flatten))
      ∧ decodeText emojiTokens = Except.ok "🌈🍕🚀" := by
  constructor
  · intro ts
    rw [decodeText_eq_error_iff, utf8Decode_none_iff]
  · rfl

/-- C3: for every completion result whose concatenated token bytes decode to
a text t, processing succeeds with t exactly when t equals the independently
reported message content, and a mismatch is surfaced as consistencyError
(never silently ignored, nothing recovered). -/
theorem processCompletion_consistency :
    ∀ (r : CompletionResult) (t : String), decodeText r.tokens = Except.ok t →
      ((processCompletion r = Except.ok t ↔ r.messageContent = t)
        ∧ (processCompletion r = Except.error AggError.consistencyError
            ↔ r.messageContent ≠ t)) := by
  intro r t h
  unfold processCompletion
  rw [h]
  by_cases hc : r.messageContent = t
  · simp [hc]
  · simp [hc]

/-- C3 witness: the recorded emoji completion, whose reported message content
is the decoded text, is processed to a success carrying that text. -/
theorem processCompletion_consistency_witness :
    processCompletion ⟨emojiTokens, "🌈🍕🚀"⟩ = Except.ok "🌈🍕🚀" :=
  ((processCompletion_consistency ⟨emojiTokens, "🌈🍕🚀"⟩ "🌈🍕🚀" rfl).1).mpr rfl

/-- The token-highlighting cell: each token byte fragment is decoded as UTF-8
on its own, token_str = bytes(t.bytes).decode, instead of decoding the
concatenation; the whole run fails as soon as one fragment is not valid
UTF-8 by itself. -/
def highlight_text : List TokenLogProb → Option (List String)
  | [] => some []
  | t :: ts =>
    match utf8DecodeString t.bytes, highlight_text ts with
    | some s, some ss => some (s :: ss)
    | _, _ => none

/-- C10: highlight_text decodes every token byte fragment individually, so a
single token whose fragment is not valid UTF-8 on its own makes it fail; on
the recorded emoji response every fragment is an incomplete multi-byte sequence,
highlight_text fails, yet decoding the full concatenation succeeds. -/
theorem highlight_text_per_token :
    (∀ (ts : List TokenLogProb) (t : TokenLogProb), t ∈ ts →
        utf8DecodeString t.bytes = none → highlight_text ts = none)
      ∧ highlight_text emojiTokens = none
      ∧ decodeText emojiTokens = Except.ok "🌈🍕🚀" := by
  refine ⟨?_, rfl, rfl⟩
  intro ts
  induction ts with
  | nil => intro t ht _; cases ht
  | cons u us ih =>
      intro t ht hnone
      rcases List.mem_cons.mp ht with rfl | hmem
      · show highlight_text (t :: us) = none
        simp only [highlight_text, hnone]
      · show highlight_text (u :: us) = none
        simp only [highlight_text, ih t hmem hnone]
        cases utf8DecodeString u.bytes <;> rfl

/-- C10 witness: the general per-token failure law applied to the recorded
emoji response at its first token, whose fragment [240, 159] is an
incomplete four-byte sequence. -/
theorem highlight_text_per_token_witness : highlight_text emojiTokens = none :=
  highlight_text_per_token.1 emojiTokens
    ⟨"\xf0\x9f", [240, 159], -0.17577635, []⟩ (by simp [emojiTokens]) rfl

/-- Modelled from the spec: the notebook only iterates over top_logprobs and
never defines a selection function, so selectTopAlternative follows the
specified behaviour: keep the alternative with the greatest logprob,
replacing the current best only on a strictly greater logprob so that ties
go to the first occurrence in the supplied ordering. -/
def selBest (best x : Alt) : Alt :=
  if best.logprob < x.logprob then x else best

/-- Modelled from the spec: selectTopAlternative takes the explicit maximum
over the list of alternatives (not merely the first element); none only on
an empty list. -/
def selectTopAlternative : List Alt → Option Alt
  | [] => none
  | a :: as => some (as.foldl selBest a)

/-- Rounding to two decimal places, as in np.round(..., 2) applied to the
percentage display. -/
noncomputable def roundTo2 (x : ℝ) : ℝ := ((round (x * 100) : ℤ) : ℝ) / 100

/-- The displayed linear-probability percentage,
np.round(np.exp(logprob) * 100, 2). -/
noncomputable def displayPct (l : ℚ) : ℝ := roundTo2 (Real.exp (l : ℝ) * 100)

lemma selBest_foldl (as : List Alt) : ∀ a : Alt,
    a.logprob ≤ (as.foldl selBest a).logprob
    ∧ (∀ b ∈ as, b.logprob ≤ (as.foldl selBest a).logprob)
    ∧ ((as.foldl selBest a) = a
        ∨ ∃ pre post, as = pre ++ (as.foldl selBest a) :: post
            ∧ a.logprob < (as.foldl selBest a).logprob
            ∧ ∀ b ∈ pre, b.logprob < (as.foldl selBest a).logprob) := by
  induction as with
  | nil =>
      intro a
      refine ⟨le_refl _, ?_, Or.inl rfl⟩
      intro b hb; cases hb
  | cons x as ih =>
      intro a
      by_cases hx : a.logprob < x.logprob
      · have hstep : (x :: as).foldl selBest a = as.foldl selBest x := by
          simp only [List.foldl_cons, selBest, if_pos hx]
        rw [hstep]
        obtain ⟨ih1, ih2, ih3⟩ := ih x
        refine ⟨le_of_lt (lt_of_lt_of_le hx ih1), ?_, ?_⟩
        · intro b hb
          rcases List.mem_cons.mp hb with rfl | hb'
          · exact ih1
          · exact ih2 b hb'
        · rcases ih3 with heq | ⟨pre, post, hsplit, hlt, hpre⟩
          · refine Or.inr ⟨[], as, ?_, ?_, ?_⟩
            · rw [heq]; rfl
            · rw [heq]; exact hx
            · intro b hb; cases hb
          · refine Or.inr ⟨x :: pre, post, ?_, ?_, ?_⟩
            · rw [List.cons_append, ← hsplit]
            · exact lt_trans hx hlt
            · intro b hb
              rcases List.mem_cons.mp hb with rfl | hb'
              · exact hlt
              · exact hpre b hb'
      · have hstep : (x :: as).foldl selBest a = as.foldl selBest a := by
          simp only [List.foldl_cons, selBest, if_neg hx]
        rw [hstep]
        obtain ⟨ih1, ih2, ih3⟩ := ih a
        refine ⟨ih1, ?_, ?_⟩
        · intro b hb
          rcases List.mem_cons.mp hb with rfl | hb'
          · exact le_trans (le_of_not_lt hx) ih1
          · exact ih2 b hb'
        · rcases ih3 with heq | ⟨pre, post, hsplit, hlt, hpre⟩
          · exact Or.inl heq
          · refine Or.inr ⟨x :: pre, post, ?_, hlt, ?_⟩
            · rw [List.cons_append, ← hsplit]
            · intro b hb
              rcases List.mem_cons.mp hb with rfl | hb'
              · exact lt_of_le_of_lt (le_of_not_lt hx) hlt
              · exact hpre b hb'

lemma displayPct_top : displayPct (-3.1737043e-6) = 100 := by
  unfold displayPct roundTo2
  have hl : ((-3.1737043e-6 : ℚ) : ℝ) = -(31737043 / 10000000000000) := by
    norm_num
  have h1 : ((-3.1737043e-6 : ℚ) : ℝ) + 1
      ≤ Real.exp (((-3.1737043e-6 : ℚ)) : ℝ) := Real.add_one_le_exp _
  rw [hl] at h1
  have h2 : Real.exp (((-3.1737043e-6 : ℚ)) : ℝ) ≤ 1 := by
    have hle : ((-3.1737043e-6 : ℚ) : ℝ) ≤ 0 := by rw [hl]; norm_num
    calc Real.exp (((-3.1737043e-6 : ℚ)) : ℝ) ≤ Real.exp 0 :=
          Real.exp_le_exp.mpr hle
      _ = 1 := Real.exp_zero
  have hr : round (Real.exp (((-3.1737043e-6 : ℚ)) : ℝ) * 100 * 100)
      = (10000 : ℤ) := by
    rw [round_eq]
    apply Int.floor_eq_iff.mpr
    constructor
    · push_cast
      nlinarith
    · push_cast
      nlinarith
  rw [hr]
  norm_num

/-- C5: selectTopAlternative on a non-empty list returns an alternative whose
logprob is maximal, with every earlier alternative strictly smaller (ties go
to the first occurrence); and on the recorded classification alternatives it
returns Technology, whose linear probability displays as exactly 100.0%. -/
theorem selectTopAlternative_spec :
    (∀ l : List Alt, l ≠ [] →
        ∃ a, selectTopAlternative l = some a
          ∧ (∀ b ∈ l, b.logprob ≤ a.logprob)
          ∧ ∃ pre post, l = pre ++ a :: post
              ∧ ∀ b ∈ pre, b.logprob < a.logprob)
      ∧ selectTopAlternative
          [⟨"Technology", -3.1737043e-6⟩, ⟨"Techn", -13.437503⟩]
          = some ⟨"Technology", -3.1737043e-6⟩
      ∧ displayPct (-3.1737043e-6) = 100 := by
  refine ⟨?_, ?_, displayPct_top⟩
  case refine_2 =>
    simp only [selectTopAlternative, List.foldl_cons, List.foldl_nil, selBest]
    rw [if_neg (by norm_num)]
  intro l hl
  cases l with
  | nil => exact absurd rfl hl
  | cons a as =>
      obtain ⟨h1, h2, h3⟩ := selBest_foldl as a
      refine ⟨as.foldl selBest a, rfl, ?_, ?_⟩
      · intro b hb
        rcases List.mem_cons.mp hb with rfl | hb'
        · exact h1
        · exact h2 b hb'
      · rcases h3 with heq | ⟨pre, post, hsplit, hlt, hpre⟩
        · refine ⟨[], as, ?_, ?_⟩
          · rw [heq]; rfl
          · intro b hb; cases hb
        · refine ⟨a :: pre, post, ?_, ?_⟩
          · rw [List.cons_append, ← hsplit]
          · intro b hb
            rcases List.mem_cons.mp hb with rfl | hb'
            · exact hlt
            · exact hpre b hb'

/-- C5 witness: the selection law applied to the non-empty recorded list of
classification alternatives. -/
theorem selectTopAlternative_spec_witness :
    ∃ a, selectTopAlternative
        [⟨"Technology", -3.1737043e-6⟩, ⟨"Techn", -13.437503⟩] = some a
      ∧ (∀ b ∈ ([⟨"Technology", -3.1737043e-6⟩,
            ⟨"Techn", -13.437503⟩] : List Alt), b.logprob ≤ a.logprob)
      ∧ ∃ pre post, ([⟨"Technology", -3.1737043e-6⟩,
            ⟨"Techn", -13.437503⟩] : List Alt) = pre ++ a :: post
          ∧ ∀ b ∈ pre, b.logprob < a.logprob :=
  selectTopAlternative_spec.1
    [⟨"Technology", -3.1737043e-6⟩, ⟨"Techn", -13.437503⟩] (by simp)

/-- The module-level names the notebook source ever binds (imports, function
definitions, assignments and loop variables across all code cells). A
subscript assignment such as high_prob_completions[sentence] = ... does not
bind its base name; it requires the name to be bound already. -/
def notebookGlobals : List String :=
  ["OpenAI", "exp", "np", "client", "get_completion", "CLASSIFICATION_PROMPT",
   "headlines", "headline", "API_RESPONSE", "logprob", "ada_lovelace_article",
   "easy_questions", "medium_questions", "PROMPT", "question", "token",
   "aggregated_bytes", "joint_logprob", "message_content", "aggregated_text",
   "sentence_list", "sentence", "alt_token", "highlight_text", "colors",
   "reset_color", "tokens", "color_idx", "token_str", "t"]

/-- The runtime failure raised on lookup of an unbound name. -/
inductive PyRunError where
  | nameError
deriving DecidableEq

open Classical in
/-- The branch body of the autocomplete suggestion loop for one alternative:
when np.exp(alt_token.logprob) > .95 the source stores the suggestion via
high_prob_completions[sentence] = alt_token.token, which looks the base name
up in the enclosing scope; an unbound name raises a NameError, and otherwise
the suggested token is recorded. Below the threshold nothing is stored. -/
noncomputable def suggestionStep (env : List String) (alt : Alt) :
    Except PyRunError (Option String) :=
  if Real.exp ((alt.logprob : ℝ)) > 0.95 then
    if "high_prob_completions" ∈ env then Except.ok (some alt.token)
    else Except.error PyRunError.nameError
  else Except.ok none

/-- C9: the 0.95 branch of the suggestion loop is reachable (the recorded
alternative favorite after My least has linear probability above 0.95, about
98.65%), the name high_prob_completions is never bound anywhere in the
source, and the loop body therefore fails with a NameError instead of
recording the suggestion. -/
theorem high_prob_completions_undefined :
    ("high_prob_completions" ∉ notebookGlobals)
      ∧ meetsThreshold (-0.013642592) (0.95 : ℝ)
      ∧ suggestionStep notebookGlobals ⟨"favorite", -0.013642592⟩
          = Except.error PyRunError.nameError := by
  have hgt : Real.exp (((-0.013642592 : ℚ)) : ℝ) > (0.95 : ℝ) := by
    have h1 : ((-0.013642592 : ℚ) : ℝ) + 1
        ≤ Real.exp (((-0.013642592 : ℚ)) : ℝ) := Real.add_one_le_exp _
    have h2 : ((-0.013642592 : ℚ) : ℝ) = -(13642592 / 1000000000) := by
      norm_num
    have h3 : (0.95 : ℝ) = 95 / 100 := by norm_num
    rw [h2] at h1
    rw [h3]
    linarith
  refine ⟨by decide, hgt, ?_⟩
  unfold suggestionStep
  rw [if_pos hgt, if_neg (by decide)]
